import Mathlib

/-!
Verification of the snapshot provider / snapshotter core of this repository.

The Rust sources embedded here are
`crates/storage/provider/src/providers/snapshot/manager.rs` (the
`SnapshotProvider` reader registry) and `crates/snapshot/src/snapshotter.rs`
(the `Snapshotter` orchestrator).  Machine integers (`u64` block and
transaction numbers) are embedded as `Nat`; Rust `saturating_sub` coincides
with truncated `Nat` subtraction, and the one place where an *unchecked*
`u64` subtraction occurs is embedded through a guarded `checkedSub`.
Fallible Rust functions (`ProviderResult<T>`) are embedded as `Except`
values, and possibly diverging loops are embedded with explicit fuel plus a
`hang` result constructor.
-/

set_option autoImplicit false

namespace Reth

/-- The `SnapshotSegment` enumeration: the three kinds of snapshottable data. -/
inductive SnapshotSegment
  | headers
  | transactions
  | receipts
deriving DecidableEq, Repr

/-- The provider error taxonomy (`ProviderError` variants used by the snapshot
core).  File paths are abstracted as numeric tokens; `ioError` stands for any
wrapped I/O or corruption error. -/
inductive ProviderErr
  | missingSnapshotBlock (segment : SnapshotSegment) (block : Nat)
  | missingSnapshotTx (segment : SnapshotSegment) (tx : Nat)
  | missingSnapshotPath (segment : SnapshotSegment) (path : Nat)
  | unsupportedProvider
  | senderRecoveryError
  | ioError (code : Nat)
deriving DecidableEq, Repr

/-- A `HashMap<SnapshotSegment, α>`: since the key type has exactly three
inhabitants, the map is embedded as one optional slot per segment. -/
structure SegMap (α : Type) where
  headers : Option α := none
  transactions : Option α := none
  receipts : Option α := none
deriving DecidableEq, Repr

namespace SegMap

variable {α : Type}

/-- `HashMap::get`. -/
def get (m : SegMap α) (s : SnapshotSegment) : Option α :=
  match s with
  | .headers => m.headers
  | .transactions => m.transactions
  | .receipts => m.receipts

/-- `HashMap::insert`. -/
def insert (m : SegMap α) (s : SnapshotSegment) (v : α) : SegMap α :=
  match s with
  | .headers => { m with headers := some v }
  | .transactions => { m with transactions := some v }
  | .receipts => { m with receipts := some v }

theorem get_insert_self (m : SegMap α) (s : SnapshotSegment) (v : α) :
    (m.insert s v).get s = some v := by
  cases s <;> rfl

theorem get_insert_ne (m : SegMap α) (s s' : SnapshotSegment) (v : α) (h : s' ≠ s) :
    (m.insert s v).get s' = m.get s' := by
  cases s <;> cases s' <;> first | rfl | exact absurd rfl h

theorem ext_get {m₁ m₂ : SegMap α} (h : ∀ s, m₁.get s = m₂.get s) : m₁ = m₂ := by
  cases m₁; cases m₂
  have h1 := h .headers
  have h2 := h .transactions
  have h3 := h .receipts
  simp only [get] at h1 h2 h3
  simp [h1, h2, h3]

end SegMap

/-- Inclusive `RangeInclusive<u64>` ranges `[lo, hi]`, as ordered pairs. -/
abbrev IRange := Nat × Nat

/-- A `BTreeMap<u64, V>` embedded as an association list strictly sorted by
key.  All operations of the source (`insert`, `range(..tx)` iteration,
`last_key_value`) are implemented on this representation. -/
abbrev BT (V : Type) := List (Nat × V)

namespace BT

variable {V : Type}

/-- `BTreeMap::insert` (ordered insert, overwriting an equal key). -/
def ins (k : Nat) (v : V) : BT V → BT V
  | [] => [(k, v)]
  | (k', v') :: t =>
    if k < k' then (k, v) :: (k', v') :: t
    else if k = k' then (k, v) :: t
    else (k', v') :: ins k v t

/-- `BTreeMap::get` / key lookup (first match). -/
def lookup (k : Nat) : BT V → Option V
  | [] => none
  | (k', v') :: t => if k' = k then some v' else lookup k t

/-- The representation invariant: keys strictly increase. -/
def SortedKeys (l : BT V) : Prop := List.Chain' (fun a b => a.1 < b.1) l

theorem lookup_ins_self (k : Nat) (v : V) (l : BT V) :
    lookup k (ins k v l) = some v := by
  induction l with
  | nil => simp [ins, lookup]
  | cons hd tl ih =>
    obtain ⟨k', v'⟩ := hd
    by_cases h1 : k < k'
    · simp [ins, h1, lookup]
    · by_cases h2 : k = k'
      · simp [ins, h1, h2, lookup]
      · simp [ins, h1, h2, lookup, Ne.symm h2, ih]

theorem lookup_ins_ne (k j : Nat) (v : V) (l : BT V) (h : j ≠ k) :
    lookup j (ins k v l) = lookup j l := by
  induction l with
  | nil => simp [ins, lookup, Ne.symm h]
  | cons hd tl ih =>
    obtain ⟨k', v'⟩ := hd
    by_cases h1 : k < k'
    · simp [ins, h1, lookup, Ne.symm h]
    · by_cases h2 : k = k'
      · subst h2
        simp [ins, h1, lookup, Ne.symm h]
      · simp [ins, h1, h2, lookup, ih]

theorem head_ins (k : Nat) (v : V) (l : BT V) :
    ∀ y ∈ (ins k v l).head?, y.1 = k ∨ y ∈ l.head? := by
  cases l with
  | nil => simp [ins]
  | cons hd tl =>
    obtain ⟨k', v'⟩ := hd
    by_cases h1 : k < k' <;> by_cases h2 : k = k' <;> simp [ins, h1, h2]

theorem sortedKeys_ins (k : Nat) (v : V) (l : BT V) (h : SortedKeys l) :
    SortedKeys (ins k v l) := by
  induction l with
  | nil => simp [ins, SortedKeys]
  | cons hd tl ih =>
    obtain ⟨k', v'⟩ := hd
    rw [SortedKeys, List.chain'_cons'] at h
    obtain ⟨hhd, htl⟩ := h
    by_cases h1 : k < k'
    · rw [SortedKeys, ins]
      simp only [h1, if_pos]
      rw [List.chain'_cons]
      exact ⟨h1, List.chain'_cons'.2 ⟨hhd, htl⟩⟩
    · by_cases h2 : k = k'
      · subst h2
        rw [SortedKeys, ins]
        simp only [lt_irrefl, if_neg, if_pos rfl, ite_false, ite_true]
        rw [List.chain'_cons']
        exact ⟨fun y hy => hhd y hy, htl⟩
      · have hk' : k' < k := by omega
        rw [SortedKeys, ins]
        simp only [h1, h2, if_neg, ite_false]
        rw [List.chain'_cons']
        refine ⟨?_, ih htl⟩
        intro y hy
        rcases head_ins k v tl y hy with heq | hmem
        · omega
        · exact hhd y hmem

end BT

/-! ## Provider resolution by transaction number (manager.rs 202-216, 110-122)

The per-process index `snapshots_tx_index : HashMap<SnapshotSegment,
BTreeMap<TxNumber, RangeInclusive<BlockNumber>>>` maps the inclusive
transaction upper bound `tx_hi` of each snapshot file to its block range. -/

/-- `get_segment_ranges_from_transaction` (manager.rs 202-216), verbatim:
`segment_snapshots.range(..tx)` iterated backwards yields the entries with
key `< tx` in descending key order; the first is `(tx_end, block_range)`,
the second supplies `tx_start` (`unwrap_or_default`, i.e. 0 if absent); the
result is `Some(block_range)` iff `(tx_start..=tx_end).contains(&tx)`. -/
def get_segment_ranges_from_transaction (txIndex : SegMap (BT IRange))
    (segment : SnapshotSegment) (tx : Nat) : Option IRange :=
  match txIndex.get segment with
  | none => none
  | some segment_snapshots =>
    let below := (segment_snapshots.filter (fun p => p.1 < tx)).reverse
    match below with
    | [] => none
    | (tx_end, block_range) :: rest =>
      let tx_start := (rest.head?.map (fun p => p.1)).getD 0
      if tx_start ≤ tx ∧ tx ≤ tx_end then some block_range else none

/-- What the spec says `provider_for_tx` should select (spec §4.1): among the
entries with `tx_hi ≥ tx` take the smallest such `tx_hi`, and confirm
`tx ≥ tx_lo` where `tx_lo` is the predecessor key plus one (or 0 if none). -/
def get_segment_ranges_from_transaction_specd (txIndex : SegMap (BT IRange))
    (segment : SnapshotSegment) (tx : Nat) : Option IRange :=
  match txIndex.get segment with
  | none => none
  | some segment_snapshots =>
    match segment_snapshots.filter (fun p => tx ≤ p.1) with
    | [] => none
    | (tx_end, block_range) :: _ =>
      let tx_lo :=
        (((segment_snapshots.filter (fun p => p.1 < tx_end)).reverse.head?).map
          (fun p => p.1 + 1)).getD 0
      if tx_lo ≤ tx then some block_range else none

/-- The inclusive transaction range covered by the index entry for `tx_end`:
`[pred(tx_end).key + 1, tx_end]`, with lower bound 0 for the first file. -/
def entryTxRange (segment_snapshots : BT IRange) (tx_end : Nat) : IRange :=
  ((((segment_snapshots.filter (fun p => p.1 < tx_end)).reverse.head?).map
      (fun p => p.1 + 1)).getD 0, tx_end)

/-- `get_segment_provider_from_transaction` (manager.rs 110-122) with
`path = None`: consult the index; on a hit, delegate to
`get_or_create_jar_provider` (abstracted as the `openJar` oracle); on a miss
return `MissingSnapshotTx(segment, tx)`. -/
def get_segment_provider_from_transaction {J : Type}
    (openJar : IRange → Except ProviderErr J) (txIndex : SegMap (BT IRange))
    (segment : SnapshotSegment) (tx : Nat) : Except ProviderErr J :=
  match get_segment_ranges_from_transaction txIndex segment tx with
  | some block_range => openJar block_range
  | none => .error (.missingSnapshotTx segment tx)

theorem get_segment_ranges_from_transaction_eq_none (txIndex : SegMap (BT IRange))
    (segment : SnapshotSegment) (tx : Nat) :
    get_segment_ranges_from_transaction txIndex segment tx = none := by
  rw [get_segment_ranges_from_transaction]
  cases hseg : txIndex.get segment with
  | none => rfl
  | some m =>
    simp only
    cases hb : (m.filter (fun p => p.1 < tx)).reverse with
    | nil => rfl
    | cons hd rest =>
      obtain ⟨tx_end, block_range⟩ := hd
      have hmem : (tx_end, block_range) ∈ m.filter (fun p => p.1 < tx) := by
        have : (tx_end, block_range) ∈ (m.filter (fun p => p.1 < tx)).reverse := by
          rw [hb]; exact List.mem_cons_self _ _
        exact List.mem_reverse.1 this
      have hlt : tx_end < tx := by
        have := List.of_mem_filter hmem
        simpa using this
      simp only
      rw [if_neg]
      intro hcontra
      omega

/-- Claim C1.  The claim states that `get_segment_provider_from_transaction`
returns the jar provider whenever some indexed file's inclusive transaction
range contains `tx`, and `MissingSnapshotTx` exactly otherwise.  The code
refutes it: because `range(..tx).next_back()` selects the greatest
`tx_hi < tx` and then demands `tx ≤ tx_hi`, the index lookup yields `None`
for every index, segment and transaction number, so the method *always*
returns `MissingSnapshotTx` — even on the failing input where the single
file `(tx_hi = 10 → blocks 0..=4)` covers `tx = 5` (its transaction range
is `[0, 10]`, and the spec-side selection rule produces block range
`0..=4`). -/
theorem C1_provider_for_tx_always_misses :
    (∀ (J : Type) (openJar : IRange → Except ProviderErr J)
        (txIndex : SegMap (BT IRange)) (segment : SnapshotSegment) (tx : Nat),
      get_segment_provider_from_transaction openJar txIndex segment tx =
        .error (.missingSnapshotTx segment tx))
    ∧ (entryTxRange [(10, ((0 : Nat), (4 : Nat)))] 10).1 ≤ 5 ∧ 5 ≤ 10
    ∧ get_segment_ranges_from_transaction_specd
        { transactions := some [(10, (0, 4))] } .transactions 5 = some (0, 4) := by
  refine ⟨?_, by decide, by decide, by decide⟩
  intro J openJar txIndex segment tx
  rw [get_segment_provider_from_transaction,
    get_segment_ranges_from_transaction_eq_none]

/-! ## Snapshotter targets and contiguity (snapshotter.rs 39-139) -/

/-- `HighestSnapshots`: per-segment highest snapshotted block. -/
structure HighestSnapshots where
  headers : Option Nat := none
  receipts : Option Nat := none
  transactions : Option Nat := none
deriving DecidableEq, Repr

/-- `SnapshotTargets`: per-segment optional inclusive block range. -/
structure SnapshotTargets where
  headers : Option IRange := none
  receipts : Option IRange := none
  transactions : Option IRange := none
deriving DecidableEq, Repr

/-- The per-segment closure of `is_contiguous_to_highest_snapshots`
(snapshotter.rs 62-67): `target.map_or(true, |r| highest.map_or(r.start == 0,
|prev| r.start == prev + 1))`. -/
def segment_target_contiguous (p : Option IRange × Option Nat) : Bool :=
  p.1.elim true fun block_number =>
    p.2.elim (block_number.1 == 0) fun previous_block_number =>
      block_number.1 == previous_block_number + 1

/-- `SnapshotTargets::is_contiguous_to_highest_snapshots` (snapshotter.rs
55-69): all three (target, highest) pairs pass the per-segment check. -/
def is_contiguous_to_highest_snapshots (t : SnapshotTargets)
    (snapshots : HighestSnapshots) : Bool :=
  [(t.headers, snapshots.headers), (t.receipts, snapshots.receipts),
    (t.transactions, snapshots.transactions)].all segment_target_contiguous

/-- `Snapshotter::get_snapshot_targets` (snapshotter.rs 122-139): each
segment's candidate range is `highest.unwrap_or_default()..=finalized`
(`getD 0`), kept only when non-empty (`lo ≤ hi` for `RangeInclusive`). -/
def get_snapshot_targets (highest_snapshots : HighestSnapshots)
    (finalized_block_number : Nat) : SnapshotTargets :=
  let headers : IRange := (highest_snapshots.headers.getD 0, finalized_block_number)
  let receipts : IRange := (highest_snapshots.receipts.getD 0, finalized_block_number)
  let transactions : IRange :=
    (highest_snapshots.transactions.getD 0, finalized_block_number)
  { headers := if headers.1 ≤ headers.2 then some headers else none
    receipts := if receipts.1 ≤ receipts.2 then some receipts else none
    transactions := if transactions.1 ≤ transactions.2 then some transactions else none }

/-! ## Index maintenance (manager.rs 219-247) -/

/-- The directory scan result of `iter_snapshots`: per segment, the list of
`(block_range, optional tx_range)` of its files, sorted by block range. -/
abbrev Listing := List (SnapshotSegment × List (IRange × Option IRange))

/-- One insertion into `snapshots_tx_index` (manager.rs 234-241): the
`Entry::Occupied` branch inserts into the existing per-segment `BTreeMap`,
the `Entry::Vacant` branch creates a singleton map. -/
def tiInsertOne (tx_index : SegMap (BT IRange)) (segment : SnapshotSegment)
    (tx_end : Nat) (block_range : IRange) : SegMap (BT IRange) :=
  match tx_index.get segment with
  | some index => tx_index.insert segment (BT.ins tx_end block_range index)
  | none => tx_index.insert segment [(tx_end, block_range)]

/-- The `snapshots_max_block` update for one listing entry (manager.rs
224-227): record the last file's block end, if the segment has any file. -/
def mb_step (mb : SegMap Nat) (segment : SnapshotSegment)
    (ranges : List (IRange × Option IRange)) : SegMap Nat :=
  match ranges.getLast? with
  | some (block_range, _) => mb.insert segment block_range.2
  | none => mb

/-- The `snapshots_tx_index` update for one listing entry (manager.rs
229-243): insert `tx_range.end → block_range` for every file that has a
transaction range. -/
def ti_step (ti : SegMap (BT IRange)) (segment : SnapshotSegment)
    (ranges : List (IRange × Option IRange)) : SegMap (BT IRange) :=
  ranges.foldl
    (fun ti pr =>
      match pr.2 with
      | some tx_range => tiInsertOne ti segment tx_range.2 pr.1
      | none => ti)
    ti

/-- `SnapshotProvider::update_index` (manager.rs 219-247) as a pure transform
of the two index maps given the directory listing: for each segment, record
the last file's block end in `snapshots_max_block`, and insert
`tx_range.end → block_range` for every file with a transaction range. -/
def update_index (listing : Listing) (max_block : SegMap Nat)
    (tx_index : SegMap (BT IRange)) : SegMap Nat × SegMap (BT IRange) :=
  listing.foldl
    (fun maps entry => (mb_step maps.1 entry.1 entry.2, ti_step maps.2 entry.1 entry.2))
    (max_block, tx_index)

/-! ## Snapshotter::run (snapshotter.rs 82-118)

The database, the per-segment writer and the on-disk directory are external
collaborators; they enter the embedding as oracles collected in `RunEnv`.
Disk contents are abstracted as a numeric token transformed by `commit`.
A transaction row is a triple `(block, tx_number, transaction)`. -/

structure RunEnv where
  /-- `self.provider_factory.provider()?` (snapshotter.rs 83). -/
  provider_acq : Except ProviderErr Unit
  /-- Modelled from the spec: `snapshot_provider.get_highest_snapshots()`
  (§4.5 HighestTracker) — the per-segment highest snapshotted block; its
  definition is not among the sources, so the value is an oracle. -/
  highest : HighestSnapshots
  /-- `snapshot_provider.writer(start, Transactions)?` (snapshotter.rs 91-92). -/
  writer_acq : Nat → Except ProviderErr Unit
  /-- `provider.block_body_indices(block)?` returning the half-open
  `tx_num_range()` (snapshotter.rs 98-101). -/
  block_body_indices : Nat → Except ProviderErr (Option IRange)
  /-- `transactions_cursor.walk_range(tx_range)?` (snapshotter.rs 102): the
  walker's entries, each itself fallible (`entry?`, snapshotter.rs 105). -/
  walk_range : IRange → Except ProviderErr (List (Except ProviderErr (Nat × Nat)))
  /-- `snapshot_writer.append_transaction(...)?` (snapshotter.rs 107): the
  fallible part of an append; on success the row joins the writer buffer. -/
  append_transaction : Nat × Nat × Nat → Except ProviderErr Unit
  /-- `snapshot_provider.commit()?` (snapshotter.rs 114): flush the writer
  buffer to disk, producing the new disk token. -/
  commit : Nat → List (Nat × Nat × Nat) → Except ProviderErr Nat
  /-- `iter_snapshots(&self.path)?` inside `update_index` (manager.rs 223). -/
  iter_snapshots : Nat → Except ProviderErr Listing

/-- The mutable state of the provider visible to `run`: both index maps, the
single transactions writer buffer, and the disk token. -/
structure PState where
  snapshots_max_block : SegMap Nat := {}
  snapshots_tx_index : SegMap (BT IRange) := {}
  writer_buffer : List (Nat × Nat × Nat) := []
  disk : Nat := 0
deriving DecidableEq, Repr

inductive Phase1Out
  | passed
  | failed (e : ProviderErr)
  | assertTripped
deriving DecidableEq, Repr

inductive RunOutcome
  | okTargets (t : SnapshotTargets)
  | fail (e : ProviderErr)
  | assertFailed
deriving DecidableEq, Repr

/-- The list of block numbers of an inclusive range, in ascending order. -/
def irangeList (r : IRange) : List Nat := List.range' r.1 (r.2 + 1 - r.1)

/-- The inner walker loop of `run` (snapshotter.rs 104-108): read each entry
(fallible), check `append_transaction`, and push the row into the buffer.
The first error stops the loop, keeping the rows appended so far. -/
def append_loop (env : RunEnv) (block : Nat) (buf : List (Nat × Nat × Nat)) :
    List (Except ProviderErr (Nat × Nat)) → List (Nat × Nat × Nat) × Option ProviderErr
  | [] => (buf, none)
  | .error e :: _ => (buf, some e)
  | .ok (tx_number, transaction) :: rest =>
    match env.append_transaction (block, tx_number, transaction) with
    | .error e => (buf, some e)
    | .ok _ => append_loop env block (buf ++ [(block, tx_number, transaction)]) rest

/-- The per-block loop of `run` (snapshotter.rs 97-109): look up the block's
body indices (a missing block is skipped with `continue`), walk its
transaction range, and append every row. -/
def block_loop (env : RunEnv) (buf : List (Nat × Nat × Nat)) :
    List Nat → List (Nat × Nat × Nat) × Option ProviderErr
  | [] => (buf, none)
  | block :: rest =>
    match env.block_body_indices block with
    | .error e => (buf, some e)
    | .ok none => block_loop env buf rest
    | .ok (some tx_range) =>
      match env.walk_range tx_range with
      | .error e => (buf, some e)
      | .ok entries =>
        match append_loop env block buf entries with
        | (buf2, some e) => (buf2, some e)
        | (buf2, none) => block_loop env buf2 rest

/-- Everything `Snapshotter::run` does before `commit`/`update_index`
(snapshotter.rs 83-110): acquire the database provider, assert the
contiguity precondition (`debug_assert!`, snapshotter.rs 86-88), acquire the
transactions writer, and run the per-block append loop.  Only the writer
buffer component of the state can change. -/
def run_phase1 (env : RunEnv) (st : PState) (targets : SnapshotTargets) :
    PState × Phase1Out :=
  match env.provider_acq with
  | .error e => (st, .failed e)
  | .ok _ =>
    if is_contiguous_to_highest_snapshots targets env.highest then
      match targets.transactions with
      | none => (st, .passed)
      | some block_range =>
        match env.writer_acq block_range.1 with
        | .error e => (st, .failed e)
        | .ok _ =>
          match block_loop env st.writer_buffer (irangeList block_range) with
          | (buf, some e) => ({ st with writer_buffer := buf }, .failed e)
          | (buf, none) => ({ st with writer_buffer := buf }, .passed)
    else (st, .assertTripped)

/-- `Snapshotter::run` (snapshotter.rs 82-118): phase 1, then `commit()` and
`update_index()`, returning the targets on success. -/
def Snapshotter.run (env : RunEnv) (st : PState) (targets : SnapshotTargets) :
    RunOutcome × PState :=
  match run_phase1 env st targets with
  | (st1, .assertTripped) => (.assertFailed, st1)
  | (st1, .failed e) => (.fail e, st1)
  | (st1, .passed) =>
    match env.commit st1.disk st1.writer_buffer with
    | .error e => (.fail e, st1)
    | .ok disk2 =>
      match env.iter_snapshots disk2 with
      | .error e => (.fail e, { st1 with disk := disk2 })
      | .ok listing =>
        let maps := update_index listing st1.snapshots_max_block st1.snapshots_tx_index
        (.okTargets targets,
          { snapshots_max_block := maps.1, snapshots_tx_index := maps.2,
            writer_buffer := [], disk := disk2 })

/-! ## Claims C2 and C4 -/

/-- Claim C2.  The claim states that each present target range is
`[highest + 1, finalized]` when a highest snapshot exists.  The code
disagrees: it computes `highest.unwrap_or_default()..=finalized`, starting
at `highest` itself.  At the failing input `highest.headers = Some(1)`,
`finalized = 5`, the code yields `headers = Some(1..=5)` instead of the
claimed `Some(2..=5)` — and that output even fails `run`'s own contiguity
precondition `is_contiguous_to_highest_snapshots`, which demands a start of
`highest + 1` (the in-file unit test likewise expects a start of 2 here). -/
theorem C2_get_snapshot_targets_starts_at_highest_not_highest_plus_one :
    get_snapshot_targets { headers := some 1 } 5 =
      { headers := some (1, 5), receipts := some (0, 5), transactions := some (0, 5) }
    ∧ get_snapshot_targets { headers := some 1 } 5 ≠
      { headers := some (2, 5), receipts := some (0, 5), transactions := some (0, 5) }
    ∧ is_contiguous_to_highest_snapshots (get_snapshot_targets { headers := some 1 } 5)
        { headers := some 1 } = false := by
  exact ⟨by decide, by decide, by decide⟩

/-- The claimed characterization of the per-segment contiguity check: the
target is absent, or the highest is absent and the target starts at 0, or
the target starts right after the highest. -/
def ContiguousSeg (target : Option IRange) (highest : Option Nat) : Prop :=
  target = none ∨
    ∃ r, target = some r ∧
      ((highest = none ∧ r.1 = 0) ∨ ∃ h, highest = some h ∧ r.1 = h + 1)

theorem segment_target_contiguous_iff (target : Option IRange) (highest : Option Nat) :
    segment_target_contiguous (target, highest) = true ↔ ContiguousSeg target highest := by
  cases target with
  | none => simp [segment_target_contiguous, ContiguousSeg]
  | some r =>
    cases highest with
    | none => simp [segment_target_contiguous, ContiguousSeg]
    | some h => simp [segment_target_contiguous, ContiguousSeg]

/-- A `RunEnv` whose every oracle succeeds trivially, with highest
transactions snapshot `Some(2)`: the environment of end-to-end scenario S6. -/
def s6Env : RunEnv where
  provider_acq := .ok ()
  highest := { transactions := some 2 }
  writer_acq := fun _ => .ok ()
  block_body_indices := fun _ => .ok none
  walk_range := fun _ => .ok []
  append_transaction := fun _ => .ok ()
  commit := fun d _ => .ok d
  iter_snapshots := fun _ => .ok []

/-- Claim C4.  `is_contiguous_to_highest_snapshots` returns `true` iff each
of the three segments has an absent target, or no highest snapshot and a
target starting at 0, or a target starting at `highest + 1`; and
`Snapshotter::run` checks this predicate (its `debug_assert!`) before any
writing, so running with `targets.transactions = 5..=10` against highest
transactions `Some(2)` trips the assertion and leaves the state untouched. -/
theorem C4_is_contiguous_characterization_and_run_asserts :
    (∀ (t : SnapshotTargets) (s : HighestSnapshots),
      is_contiguous_to_highest_snapshots t s = true ↔
        (ContiguousSeg t.headers s.headers ∧ ContiguousSeg t.receipts s.receipts ∧
          ContiguousSeg t.transactions s.transactions))
    ∧ is_contiguous_to_highest_snapshots { transactions := some (5, 10) }
        { transactions := some 2 } = false
    ∧ Snapshotter.run s6Env {} { transactions := some (5, 10) } = (.assertFailed, {}) := by
  refine ⟨?_, by decide, by decide⟩
  intro t s
  simp only [is_contiguous_to_highest_snapshots, List.all_cons, List.all_nil,
    Bool.and_eq_true, Bool.and_true, segment_target_contiguous_iff]

/-! ## Unsupported reader methods (manager.rs 484-486, 615-708)

The outcome of calling one Rust method: a value, a `ProviderError`, or a
panic (the embedding of `unreachable!()`).  The methods below ignore their
arguments and do not inspect provider state, so they are embedded as
constants, polymorphic in the (never produced) payload type. -/

inductive MOut (α : Type)
  | value (a : α)
  | fail (e : ProviderErr)
  | panicked
deriving DecidableEq, Repr

/-- `BlockHashOrNumber`: hashes abstracted as numeric tokens. -/
inductive BlockHashOrNumber
  | hash (h : Nat)
  | number (n : Nat)
deriving DecidableEq, Repr

/-- `BlockReader::pending_block` (manager.rs 654-657):
`Err(ProviderError::UnsupportedProvider)`. -/
def pending_block {α : Type} : MOut α := .fail .unsupportedProvider

/-- `BlockReader::ommers` (manager.rs 669-672):
`Err(ProviderError::UnsupportedProvider)`. -/
def ommers {α : Type} (_id : BlockHashOrNumber) : MOut α := .fail .unsupportedProvider

/-- `WithdrawalsProvider::withdrawals_by_block` (manager.rs 695-702):
`Err(ProviderError::UnsupportedProvider)`. -/
def withdrawals_by_block {α : Type} (_id : BlockHashOrNumber) (_timestamp : Nat) :
    MOut α := .fail .unsupportedProvider

/-- `TransactionsProvider::transactions_by_block` (manager.rs 571-577):
`Err(ProviderError::UnsupportedProvider)`. -/
def transactions_by_block {α : Type} (_block_id : BlockHashOrNumber) : MOut α :=
  .fail .unsupportedProvider

/-- `ReceiptProvider::receipts_by_block` (manager.rs 484-486): the body is
`unreachable!()` — it panics. -/
def receipts_by_block {α : Type} (_block : BlockHashOrNumber) : MOut α := .panicked

/-- Claim C3, counterexample.  At the concrete input `block = number 0`, the
reader method `receipts_by_block` does not return `UnsupportedProvider`: it
panics (`unreachable!()`), refuting the claim that every listed method
deterministically returns the error and none panics. -/
theorem C3_counterexample_receipts_by_block_panics :
    receipts_by_block (α := Unit) (.number 0) = .panicked ∧
      receipts_by_block (α := Unit) (.number 0) ≠ .fail .unsupportedProvider := by
  exact ⟨rfl, by decide⟩

/-- Claim C3 as amended.  `pending_block`, `ommers`, `withdrawals_by_block`
and `transactions_by_block` deterministically return `UnsupportedProvider`
and never panic or return data, while `receipts_by_block` — contrary to the
original claim — deterministically panics via `unreachable!()`. -/
theorem C3_unsupported_methods_amended :
    (∀ (α : Type), pending_block (α := α) = .fail .unsupportedProvider)
    ∧ (∀ (α : Type) (id : BlockHashOrNumber),
        ommers (α := α) id = .fail .unsupportedProvider)
    ∧ (∀ (α : Type) (id : BlockHashOrNumber) (ts : Nat),
        withdrawals_by_block (α := α) id ts = .fail .unsupportedProvider)
    ∧ (∀ (α : Type) (id : BlockHashOrNumber),
        transactions_by_block (α := α) id = .fail .unsupportedProvider)
    ∧ (∀ (α : Type) (b : BlockHashOrNumber), receipts_by_block (α := α) b = .panicked) := by
  exact ⟨fun _ => rfl, fun _ _ => rfl, fun _ _ _ => rfl, fun _ _ => rfl, fun _ _ => rfl⟩

/-! ## fetch_range (manager.rs 287-330)

`fetch_range` scans a half-open number range across snapshot files.  The
provider/cursor pair obtained from `get_provider` is abstracted as a numeric
token (the number at which it was resolved); `get_fn` receives that token
and the queried number.  The unbounded inner `loop` is embedded with fuel
and a `hang` result; the unchecked `u64` capacity subtraction
`range.end - range.start` (manager.rs 305) is embedded through `checkedSub`
with a dedicated `underflow` result. -/

/-- Guarded `u64` subtraction: `none` exactly when the Rust subtraction
would underflow. -/
def checkedSub (a b : Nat) : Option Nat := if b ≤ a then some (a - b) else none

inductive InnerRes (T : Type)
  | found (res : T) (prov : Nat)
  | fail (e : ProviderErr)
  | hang
deriving DecidableEq, Repr

inductive FetchRes (T : Type)
  | ok (xs : List T)
  | fail (e : ProviderErr)
  | hang
  | underflow
deriving DecidableEq, Repr

/-- The inner `loop` of `fetch_range` (manager.rs 312-326): query `get_fn`;
on `Some` hand the value back (keeping the current provider), on `None`
re-resolve the provider at the same `number` and retry that `number`. -/
def fetch_inner {T : Type} (get_provider : Nat → Except ProviderErr Nat)
    (get_fn : Nat → Nat → Except ProviderErr (Option T)) :
    Nat → Nat → Nat → InnerRes T
  | 0, _, _ => .hang
  | fuel + 1, prov, number =>
    match get_fn prov number with
    | .error e => .fail e
    | .ok (some res) => .found res prov
    | .ok none =>
      match get_provider number with
      | .error e => .fail e
      | .ok prov2 => fetch_inner get_provider get_fn fuel prov2 number

/-- The outer `for number in range` loop of `fetch_range` (manager.rs
310-327): push each retrieved value, stopping the whole scan (`break
'outer`) when `predicate` rejects a value, which is then not pushed. -/
def fetch_outer {T : Type} (get_provider : Nat → Except ProviderErr Nat)
    (get_fn : Nat → Nat → Except ProviderErr (Option T)) (predicate : T → Bool)
    (fuel : Nat) : List Nat → Nat → List T → FetchRes T
  | [], _, result => .ok result.reverse
  | number :: rest, prov, result =>
    match fetch_inner get_provider get_fn fuel prov number with
    | .hang => .hang
    | .fail e => .fail e
    | .found res prov2 =>
      if predicate res then
        fetch_outer get_provider get_fn predicate fuel rest prov2 (res :: result)
      else .ok result.reverse

/-- `SnapshotProvider::fetch_range` (manager.rs 287-330): compute the
capacity hint `(range.end - range.start).min(100)`, resolve the provider at
`range.start`, then run the scan loops.  `range` is half-open. -/
def fetch_range {T : Type} (get_provider : Nat → Except ProviderErr Nat)
    (get_fn : Nat → Nat → Except ProviderErr (Option T)) (predicate : T → Bool)
    (range : Nat × Nat) (fuel : Nat) : FetchRes T :=
  match checkedSub range.2 range.1 with
  | none => .underflow
  | some len =>
    let _capacity := Nat.min len 100
    match get_provider range.1 with
    | .error e => .fail e
    | .ok prov =>
      fetch_outer get_provider get_fn predicate fuel (List.range' range.1 len) prov []

theorem fetch_inner_total {T : Type} (get_provider : Nat → Except ProviderErr Nat)
    (get_fn : Nat → Nat → Except ProviderErr (Option T)) (v : Nat → T)
    (hgf : ∀ p n, get_fn p n = .ok (some (v n))) (fuel : Nat) (hf : 0 < fuel)
    (prov number : Nat) :
    fetch_inner get_provider get_fn fuel prov number = .found (v number) prov := by
  cases fuel with
  | zero => omega
  | succ f => rw [fetch_inner, hgf]

theorem fetch_outer_takeWhile {T : Type} (get_provider : Nat → Except ProviderErr Nat)
    (get_fn : Nat → Nat → Except ProviderErr (Option T)) (predicate : T → Bool)
    (v : Nat → T) (hgf : ∀ p n, get_fn p n = .ok (some (v n))) (fuel : Nat)
    (hf : 0 < fuel) :
    ∀ (nums : List Nat) (prov : Nat) (acc : List T),
      fetch_outer get_provider get_fn predicate fuel nums prov acc =
        .ok (acc.reverse ++ List.takeWhile predicate (nums.map v)) := by
  intro nums
  induction nums with
  | nil => intro prov acc; simp [fetch_outer]
  | cons n rest ih =>
    intro prov acc
    rw [fetch_outer, fetch_inner_total get_provider get_fn v hgf fuel hf]
    by_cases hp : predicate (v n)
    · simp only [hp, if_pos, ih, List.map_cons, List.takeWhile_cons, List.reverse_cons]
      simp [hp]
    · simp only [hp, if_neg, List.map_cons, List.takeWhile_cons]
      simp [hp]

theorem takeWhile_all_then_false {α : Type} (p : α → Bool) (l1 : List α) (x : α)
    (l2 : List α) (h1 : ∀ a ∈ l1, p a = true) (hx : p x = false) :
    List.takeWhile p (l1 ++ x :: l2) = l1 := by
  induction l1 with
  | nil => simp [List.takeWhile_cons, hx]
  | cons a t ih =>
    have ha : p a = true := h1 a (List.mem_cons_self a t)
    simp only [List.cons_append, List.takeWhile_cons, ha, if_pos]
    simp [ih fun b hb => h1 b (List.mem_cons_of_mem a hb)]

/-- Claim C5.  Under resolvable providers and a `get_fn` that yields the
value `v n` for each number `n`: (1) `fetch_range` returns the values of the
range's numbers in ascending order, truncated at the first predicate
rejection (`takeWhile`); (2) when `get_fn` returns `None`, the inner loop
re-resolves the provider at the same number and retries that same number;
(3) when the predicate first rejects at position `k`, exactly the first `k`
items are returned and the rejected item is excluded. -/
theorem C5_fetch_range_order_retry_earlystop {T : Type}
    (get_provider : Nat → Except ProviderErr Nat)
    (get_fn : Nat → Nat → Except ProviderErr (Option T)) (predicate : T → Bool)
    (s e fuel : Nat) (v : Nat → T)
    (hgp : ∀ n, get_provider n = .ok n)
    (hgf : ∀ p n, get_fn p n = .ok (some (v n)))
    (hf : 0 < fuel) (hse : s ≤ e) :
    (fetch_range get_provider get_fn predicate (s, e) fuel =
      .ok (List.takeWhile predicate ((List.range' s (e - s)).map v)))
    ∧ (∀ (gf2 : Nat → Nat → Except ProviderErr (Option T))
        (gp2 : Nat → Except ProviderErr Nat) (f prov prov2 number : Nat),
        gf2 prov number = .ok none → gp2 number = .ok prov2 →
        fetch_inner gp2 gf2 (f + 1) prov number = fetch_inner gp2 gf2 f prov2 number)
    ∧ (∀ k : Nat, s + k < e → (∀ i, i < k → predicate (v (s + i)) = true) →
        predicate (v (s + k)) = false →
        fetch_range get_provider get_fn predicate (s, e) fuel =
          .ok ((List.range' s k).map v) ∧ ((List.range' s k).map v).length = k) := by
  have hmain : fetch_range get_provider get_fn predicate (s, e) fuel =
      .ok (List.takeWhile predicate ((List.range' s (e - s)).map v)) := by
    rw [fetch_range]
    simp only [checkedSub, hse, if_pos, hgp s]
    rw [fetch_outer_takeWhile get_provider get_fn predicate v hgf fuel hf]
    simp
  refine ⟨hmain, ?_, ?_⟩
  · intro gf2 gp2 f prov prov2 number hnone hprov
    rw [fetch_inner, hnone, hprov]
  · intro k hk hall hfalse
    have hsplit : List.range' s (e - s) = List.range' s k ++ List.range' (s + k) (e - s - k) := by
      have happ := List.range'_append s k (e - s - k) 1
      simp only [one_mul, Nat.mul_one] at happ
      have harith : e - s - k + k = e - s := by omega
      rw [harith] at happ
      exact happ.symm
    obtain ⟨m, hm⟩ : ∃ m, e - s - k = m + 1 := ⟨e - s - k - 1, by omega⟩
    have hcons : List.range' (s + k) (e - s - k) = (s + k) :: List.range' (s + k + 1) m := by
      rw [hm, List.range'_succ]
    have hmap : (List.range' s (e - s)).map v =
        (List.range' s k).map v ++ v (s + k) :: (List.range' (s + k + 1) m).map v := by
      rw [hsplit, hcons]
      simp
    have htw : List.takeWhile predicate ((List.range' s (e - s)).map v) =
        (List.range' s k).map v := by
      rw [hmap]
      refine takeWhile_all_then_false predicate _ _ _ ?_ hfalse
      intro a ha
      rw [List.mem_map] at ha
      obtain ⟨b, hb, rfl⟩ := ha
      rw [List.mem_range'_1] at hb
      have : b - s < k := by omega
      have := hall (b - s) this
      have hbs : s + (b - s) = b := by omega
      rwa [hbs] at this
    constructor
    · rw [hmain, htw]
    · simp

/-- Concrete oracles for the `fetch_range` witnesses: providers always
resolve, `get_fn` returns the queried number, the predicate keeps values
below 2. -/
def fr_gp : Nat → Except ProviderErr Nat := fun n => .ok n

def fr_gf : Nat → Nat → Except ProviderErr (Option Nat) := fun _ n => .ok (some n)

def fr_pred : Nat → Bool := fun n => decide (n < 2)

theorem C5_fetch_range_witness :
    fetch_range fr_gp fr_gf fr_pred (0, 5) 1 = .ok [0, 1] := by
  have h := C5_fetch_range_order_retry_earlystop fr_gp fr_gf fr_pred 0 5 1 id
    (fun _ => rfl) (fun _ _ => rfl) (by decide) (by decide)
  rw [h.1]
  decide

theorem fetch_outer_ne_underflow {T : Type}
    (get_provider : Nat → Except ProviderErr Nat)
    (get_fn : Nat → Nat → Except ProviderErr (Option T)) (predicate : T → Bool)
    (fuel : Nat) :
    ∀ (nums : List Nat) (prov : Nat) (acc : List T),
      fetch_outer get_provider get_fn predicate fuel nums prov acc ≠ .underflow := by
  intro nums
  induction nums with
  | nil => intro prov acc; simp [fetch_outer]
  | cons n rest ih =>
    intro prov acc
    rw [fetch_outer]
    split
    · simp
    · simp
    · split
      · exact ih _ _
      · simp

/-- Claim C10.  The capacity hint of `fetch_range` subtracts
`range.end - range.start` with an unchecked `u64` subtraction before any
item is fetched: whenever `range.end < range.start` the guarded embedding
reaches the underflow branch (independently of every oracle, i.e. before
any fetch), and whenever `range.start ≤ range.end` it never does — so
`range.start ≤ range.end` is a precondition of `fetch_range`. -/
theorem C10_fetch_range_capacity_subtraction {T : Type}
    (get_provider : Nat → Except ProviderErr Nat)
    (get_fn : Nat → Nat → Except ProviderErr (Option T)) (predicate : T → Bool)
    (s e fuel : Nat) :
    (e < s → fetch_range get_provider get_fn predicate (s, e) fuel = .underflow)
    ∧ (s ≤ e → fetch_range get_provider get_fn predicate (s, e) fuel ≠ .underflow) := by
  constructor
  · intro h
    rw [fetch_range]
    simp only [checkedSub]
    rw [if_neg (by omega)]
  · intro h
    rw [fetch_range]
    simp only [checkedSub, h, if_pos]
    cases hgp : get_provider s with
    | error e0 => simp
    | ok prov => simpa using fetch_outer_ne_underflow get_provider get_fn predicate fuel _ prov []

theorem C10_fetch_range_capacity_witness :
    fetch_range fr_gp fr_gf fr_pred (5, 3) 1 = .underflow ∧
      fetch_range fr_gp fr_gf fr_pred (0, 2) 1 ≠ .underflow :=
  ⟨(C10_fetch_range_capacity_subtraction fr_gp fr_gf fr_pred 5 3 1).1 (by decide),
    (C10_fetch_range_capacity_subtraction fr_gp fr_gf fr_pred 0 2 1).2 (by decide)⟩

/-! ## find_snapshot (manager.rs 264-281)

The helper `find_fixed_range` and the constant `BLOCKS_PER_SNAPSHOT` are not
among the source files (they live in the sibling module re-exported by
`super`); `find_fixed_range` is modelled from the spec and the block count
is kept as a parameter `bps`.  `get_or_create_jar_provider` is the `getJar`
oracle; Rust `saturating_sub` is `Nat` subtraction. -/

/-- Modelled from the spec: `find_fixed_range(blocks_per_snapshot, block)`
(spec §4.1) computes the canonical aligned range
`[floor(block / N) · N, floor(block / N) · N + N − 1]`. -/
def find_fixed_range (bps block : Nat) : IRange :=
  ((block / bps) * bps, (block / bps) * bps + (bps - 1))

inductive FindRes (T : Type)
  | ok (r : Option T)
  | fail (e : ProviderErr)
  | hang
deriving DecidableEq, Repr

/-- The loop body expression
`func(self.get_or_create_jar_provider(segment, &range)?)?` (manager.rs 272):
acquire the jar for the range, then apply the predicate, each `?`
propagating errors. -/
def jar_step {J T : Type} (getJar : IRange → Except ProviderErr J)
    (func : J → Except ProviderErr (Option T)) (range : IRange) :
    Except ProviderErr (Option T) :=
  match getJar range with
  | .error e => .error e
  | .ok jar => func jar

/-- The `while *range.end() > 0` loop of `find_snapshot` (manager.rs
271-277), with fuel: evaluate `jar_step` on the current range, return the
first `Some`, otherwise shift both bounds down by `bps` with saturating
subtraction. -/
def find_snapshot_go {J T : Type} (getJar : IRange → Except ProviderErr J)
    (func : J → Except ProviderErr (Option T)) (bps : Nat) :
    Nat → IRange → FindRes T
  | 0, _ => .hang
  | fuel + 1, range =>
    if 0 < range.2 then
      match jar_step getJar func range with
      | .error e => .fail e
      | .ok (some res) => .ok (some res)
      | .ok none => find_snapshot_go getJar func bps fuel (range.1 - bps, range.2 - bps)
    else .ok none

/-- `SnapshotProvider::find_snapshot` (manager.rs 264-281): `Ok(None)` when
the segment has no highest snapshot block; otherwise loop from the aligned
range covering it.  The fuel `highest_block + 2` dominates the loop's
iteration count. -/
def find_snapshot {J T : Type} (getJar : IRange → Except ProviderErr J)
    (func : J → Except ProviderErr (Option T)) (bps : Nat)
    (highest : Option Nat) : FindRes T :=
  match highest with
  | none => .ok none
  | some highest_block =>
    find_snapshot_go getJar func bps (highest_block + 2) (find_fixed_range bps highest_block)

/-- The descending list of aligned ranges with indices `q, q-1, …, 0`. -/
def desc_ranges (bps q : Nat) : List IRange :=
  (List.range (q + 1)).reverse.map (fun k => (k * bps, k * bps + (bps - 1)))

/-- Reference fold: apply the predicate to each jar in list order, propagate
errors, and return the first `Some`. -/
def first_jar_hit {J T : Type} (getJar : IRange → Except ProviderErr J)
    (func : J → Except ProviderErr (Option T)) : List IRange → FindRes T
  | [] => .ok none
  | r :: rest =>
    match jar_step getJar func r with
    | .error e => .fail e
    | .ok (some res) => .ok (some res)
    | .ok none => first_jar_hit getJar func rest

theorem find_snapshot_go_eq_first_jar_hit {J T : Type}
    (getJar : IRange → Except ProviderErr J) (func : J → Except ProviderErr (Option T))
    (bps : Nat) (hbps : 1 < bps) :
    ∀ (k fuel : Nat), k + 2 ≤ fuel →
      find_snapshot_go getJar func bps fuel (k * bps, k * bps + (bps - 1)) =
        first_jar_hit getJar func (desc_ranges bps k) := by
  intro k
  induction k with
  | zero =>
    intro fuel hfuel
    obtain ⟨f, rfl⟩ : ∃ f, fuel = f + 1 := ⟨fuel - 1, by omega⟩
    have hz : ((0 : Nat) * bps, 0 * bps + (bps - 1)) = ((0 : Nat), bps - 1) := by simp
    have hdesc : desc_ranges bps 0 = [((0 : Nat), bps - 1)] := by
      have hr1 : List.range 1 = [0] := rfl
      simp [desc_ranges, hr1]
    rw [hz, hdesc, find_snapshot_go, first_jar_hit]
    rw [if_pos (show 0 < ((0 : Nat), bps - 1).2 from by show 0 < bps - 1; omega)]
    cases hs : jar_step getJar func ((0 : Nat), bps - 1) with
    | error e => rfl
    | ok r =>
      cases r with
      | some res => rfl
      | none =>
        show find_snapshot_go getJar func bps f (0 - bps, bps - 1 - bps) = .ok none
        have h1 : 0 - bps = 0 := by omega
        have h2 : bps - 1 - bps = 0 := by omega
        rw [h1, h2]
        obtain ⟨f2, rfl⟩ : ∃ f2, f = f2 + 1 := ⟨f - 1, by omega⟩
        rw [find_snapshot_go, if_neg (show ¬ 0 < ((0 : Nat), (0 : Nat)).2 from by simp)]
  | succ k ih =>
    intro fuel hfuel
    obtain ⟨f, rfl⟩ : ∃ f, fuel = f + 1 := ⟨fuel - 1, by omega⟩
    have hdesc : desc_ranges bps (k + 1) =
        ((k + 1) * bps, (k + 1) * bps + (bps - 1)) :: desc_ranges bps k := by
      rw [desc_ranges, List.range_succ, List.reverse_append]
      simp [desc_ranges]
    have hmul : (k + 1) * bps = k * bps + bps := by ring
    rw [hdesc, find_snapshot_go, first_jar_hit]
    rw [if_pos (show 0 < ((k + 1) * bps, (k + 1) * bps + (bps - 1)).2 from by
      show 0 < (k + 1) * bps + (bps - 1); omega)]
    cases hs : jar_step getJar func ((k + 1) * bps, (k + 1) * bps + (bps - 1)) with
    | error e => rfl
    | ok r =>
      cases r with
      | some res => rfl
      | none =>
        show find_snapshot_go getJar func bps f
            ((k + 1) * bps - bps, (k + 1) * bps + (bps - 1) - bps) =
          first_jar_hit getJar func (desc_ranges bps k)
        have h1 : (k + 1) * bps - bps = k * bps := by omega
        have h2 : (k + 1) * bps + (bps - 1) - bps = k * bps + (bps - 1) := by omega
        rw [h1, h2]
        exact ih f (by omega)

/-- Claim C6.  For every jar oracle and predicate (each call of which is a
terminating Lean function), `find_snapshot` terminates and equals an
explicit finite fold: `Ok(None)` when the segment has no highest block, and
otherwise the first predicate hit over the descending list of aligned
ranges starting at the one covering the highest block and stepping down by
`bps` (saturating) until the upper bound would reach zero; when every jar
answers `None` the overall result is `Ok(None)`. -/
theorem C6_find_snapshot_terminates_and_scans_downward {J T : Type}
    (getJar : IRange → Except ProviderErr J) (func : J → Except ProviderErr (Option T))
    (bps : Nat) (highest : Option Nat) (hbps : 1 < bps) :
    (find_snapshot getJar func bps highest =
      match highest with
      | none => .ok none
      | some hb => first_jar_hit getJar func (desc_ranges bps (hb / bps)))
    ∧ (∀ (l : List IRange),
        (∀ r ∈ l, jar_step getJar func r = .ok none) →
        first_jar_hit getJar func l = .ok none) := by
  constructor
  · cases highest with
    | none => rfl
    | some hb =>
      simp only [find_snapshot]
      have hrange : find_fixed_range bps hb = (hb / bps * bps, hb / bps * bps + (bps - 1)) := rfl
      rw [hrange]
      exact find_snapshot_go_eq_first_jar_hit getJar func bps hbps (hb / bps) (hb + 2)
        (by have := Nat.div_le_self hb bps; omega)
  · intro l hl
    induction l with
    | nil => rfl
    | cons r rest ih =>
      rw [first_jar_hit, hl r (List.mem_cons_self r rest)]
      exact ih fun r' hr' => hl r' (List.mem_cons_of_mem r hr')

/-- Concrete oracles for the `find_snapshot` witness: the jar is its own
range and the predicate hits exactly the jar whose range starts at block 2. -/
def fs_getJar : IRange → Except ProviderErr IRange := fun r => .ok r

def fs_func : IRange → Except ProviderErr (Option IRange) := fun j =>
  .ok (if j.1 == 2 then some j else none)

theorem C6_find_snapshot_witness :
    find_snapshot fs_getJar fs_func 2 (some 5) = .ok (some (2, 3)) := by
  have h := C6_find_snapshot_terminates_and_scans_downward fs_getJar fs_func 2 (some 5)
    (by decide)
  rw [h.1]
  decide

/-! ## Claim C7: run aborts on error with the index untouched -/

theorem run_phase1_preserves_index (env : RunEnv) (st : PState)
    (targets : SnapshotTargets) :
    ((run_phase1 env st targets).1).snapshots_max_block = st.snapshots_max_block ∧
      ((run_phase1 env st targets).1).snapshots_tx_index = st.snapshots_tx_index := by
  rw [run_phase1]
  repeat' split
  all_goals exact ⟨rfl, rfl⟩

/-- Claim C7.  If any pre-commit step of `Snapshotter::run` fails — database
provider acquisition, the contiguity-checked writer acquisition, the body
index / cursor walk, or an `append_transaction` — then `run` returns that
very error unchanged and both provider index maps (`snapshots_max_block`
and `snapshots_tx_index`) are exactly as before the call: `commit()` and
`update_index()` run only after every append has succeeded. -/
theorem C7_run_error_propagates_and_preserves_index (env : RunEnv)
    (st st1 : PState) (targets : SnapshotTargets) (e : ProviderErr)
    (h : run_phase1 env st targets = (st1, .failed e)) :
    Snapshotter.run env st targets = (.fail e, st1) ∧
      st1.snapshots_max_block = st.snapshots_max_block ∧
      st1.snapshots_tx_index = st.snapshots_tx_index := by
  have hp := run_phase1_preserves_index env st targets
  rw [h] at hp
  exact ⟨by rw [Snapshotter.run, h], hp.1, hp.2⟩

/-- A run environment whose database provider acquisition fails with an I/O
error, over a provider state with non-empty index maps. -/
def c7Env : RunEnv where
  provider_acq := .error (.ioError 7)
  highest := {}
  writer_acq := fun _ => .ok ()
  block_body_indices := fun _ => .ok none
  walk_range := fun _ => .ok []
  append_transaction := fun _ => .ok ()
  commit := fun d _ => .ok d
  iter_snapshots := fun _ => .ok []

def c7State : PState where
  snapshots_max_block := { headers := some 7 }
  snapshots_tx_index := { transactions := some [(3, (0, 1))] }
  writer_buffer := []
  disk := 0

theorem C7_run_error_witness :
    Snapshotter.run c7Env c7State {} = (.fail (.ioError 7), c7State) ∧
      c7State.snapshots_max_block = { headers := some 7 } :=
  ⟨(C7_run_error_propagates_and_preserves_index c7Env c7State c7State {}
      (.ioError 7) (by decide)).1, rfl⟩

/-! ## Claim C8: update_index is idempotent

The proof characterizes what one pass of `update_index` writes into each
map slot (last write wins) and shows a second pass over the same listing
rewrites exactly the same values.  The `BTreeMap` reasoning goes through
lookup extensionality on the strictly sorted association lists. -/

theorem BT.lookup_eq_none_of_forall_ne {V : Type} (j : Nat) (l : BT V)
    (h : ∀ p ∈ l, p.1 ≠ j) : BT.lookup j l = none := by
  induction l with
  | nil => rfl
  | cons hd tl ih =>
    rw [BT.lookup]
    rw [if_neg (h hd (List.mem_cons_self hd tl))]
    exact ih fun p hp => h p (List.mem_cons_of_mem hd hp)

theorem BT.sortedKeys_cons_gt {V : Type} (k : Nat) (v : V) (t : BT V)
    (h : BT.SortedKeys ((k, v) :: t)) : ∀ p ∈ t, k < p.1 := by
  induction t generalizing k v with
  | nil => intro p hp; cases hp
  | cons hd tl ih =>
    rw [BT.SortedKeys, List.chain'_cons] at h
    intro p hp
    rcases List.mem_cons.1 hp with rfl | hp2
    · exact h.1
    · exact lt_trans h.1 (ih hd.1 hd.2 h.2 p hp2)

theorem BT.ext_lookup {V : Type} (l1 l2 : BT V) (h1 : BT.SortedKeys l1)
    (h2 : BT.SortedKeys l2) (h : ∀ j, BT.lookup j l1 = BT.lookup j l2) :
    l1 = l2 := by
  induction l1 generalizing l2 with
  | nil =>
    cases l2 with
    | nil => rfl
    | cons hd t2 =>
      have := h hd.1
      rw [BT.lookup, BT.lookup, if_pos rfl] at this
      exact absurd this (by simp)
  | cons hd1 t1 ih =>
    obtain ⟨k1, v1⟩ := hd1
    cases l2 with
    | nil =>
      have := h k1
      rw [BT.lookup, BT.lookup, if_pos rfl] at this
      exact absurd this (by simp)
    | cons hd2 t2 =>
      obtain ⟨k2, v2⟩ := hd2
      have hgt1 := BT.sortedKeys_cons_gt k1 v1 t1 h1
      have hgt2 := BT.sortedKeys_cons_gt k2 v2 t2 h2
      have hkeys : k1 = k2 := by
        by_contra hne
        rcases Nat.lt_or_ge k1 k2 with hlt | hge
        · have hl2 : BT.lookup k1 ((k2, v2) :: t2) = none := by
            rw [BT.lookup, if_neg (by omega)]
            exact BT.lookup_eq_none_of_forall_ne k1 t2
              fun p hp => by have := hgt2 p hp; omega
          have := h k1
          rw [BT.lookup, if_pos rfl, hl2] at this
          exact absurd this (by simp)
        · have hlt2 : k2 < k1 := by omega
          have hl1 : BT.lookup k2 ((k1, v1) :: t1) = none := by
            rw [BT.lookup, if_neg (by omega)]
            exact BT.lookup_eq_none_of_forall_ne k2 t1
              fun p hp => by have := hgt1 p hp; omega
          have := h k2
          rw [hl1, BT.lookup, if_pos rfl] at this
          exact absurd this (by simp)
      subst hkeys
      have hvals : v1 = v2 := by
        have := h k1
        rw [BT.lookup, if_pos rfl, BT.lookup, if_pos rfl] at this
        exact Option.some.inj this
      subst hvals
      have ht1 : BT.SortedKeys t1 := (List.chain'_cons'.1 h1).2
      have ht2 : BT.SortedKeys t2 := (List.chain'_cons'.1 h2).2
      have htails : ∀ j, BT.lookup j t1 = BT.lookup j t2 := by
        intro j
        by_cases hj : j = k1
        · subst hj
          rw [BT.lookup_eq_none_of_forall_ne j t1 fun p hp => by have := hgt1 p hp; omega,
            BT.lookup_eq_none_of_forall_ne j t2 fun p hp => by have := hgt2 p hp; omega]
        · have := h j
          rw [BT.lookup, if_neg (by omega), BT.lookup, if_neg (by omega)] at this
          exact this
      rw [ih t2 ht1 ht2 htails]

/-- Left-biased choice on options: the value written by a fold, if any,
otherwise the starting value. -/
def oor {α : Type} : Option α → Option α → Option α
  | some v, _ => some v
  | none, cur => cur

theorem oor_absorb {α : Type} (x c : Option α) : oor x (oor x c) = oor x c := by
  cases x <;> rfl

/-- Apply a list of `(key, value)` insertions to a sorted association list. -/
def applyPairs (ps : List (Nat × IRange)) (m : BT IRange) : BT IRange :=
  ps.foldl (fun m p => BT.ins p.1 p.2 m) m

/-- The `(tx_end, block_range)` insertions contributed by one segment's file
list. -/
def rangePairs (ranges : List (IRange × Option IRange)) : List (Nat × IRange) :=
  ranges.filterMap (fun pr => pr.2.map (fun tx_range => (tx_range.2, pr.1)))

/-- The per-segment `BTreeMap`, defaulting to empty: `tiInsertOne`'s vacant
branch creates exactly `BT.ins` into the empty list. -/
def tiGetD (ti : SegMap (BT IRange)) (seg : SnapshotSegment) : BT IRange :=
  (ti.get seg).getD []

theorem tiInsertOne_eq (ti : SegMap (BT IRange)) (seg : SnapshotSegment)
    (k : Nat) (v : IRange) :
    tiInsertOne ti seg k v = ti.insert seg (BT.ins k v (tiGetD ti seg)) := by
  rw [tiInsertOne, tiGetD]
  cases ti.get seg <;> rfl

/-- The value `snapshots_max_block[seg]` carries after folding the listing,
starting from `cur`. -/
def mbVal (seg : SnapshotSegment) (cur : Option Nat) : Listing → Option Nat
  | [] => cur
  | e :: t =>
    mbVal seg
      (if e.1 = seg then
        match e.2.getLast? with
        | some (block_range, _) => some block_range.2
        | none => cur
      else cur) t

theorem mbVal_oor (seg : SnapshotSegment) :
    ∀ (l : Listing) (cur : Option Nat), mbVal seg cur l = oor (mbVal seg none l) cur := by
  intro l
  induction l with
  | nil => intro cur; rfl
  | cons e t ih =>
    intro cur
    by_cases he : e.1 = seg
    · cases hl : e.2.getLast? with
      | none =>
        simp only [mbVal, if_pos he, hl]
        rw [ih cur]
      | some pr =>
        obtain ⟨block_range, o⟩ := pr
        simp only [mbVal, if_pos he, hl]
        rw [ih (some block_range.2)]
        cases mbVal seg none t <;> rfl
    · simp only [mbVal, if_neg he]
      rw [ih cur]

/-- Folding a list of per-segment insertions into the transaction index. -/
def pairsFold (seg : SnapshotSegment) (ps : List (Nat × IRange))
    (ti : SegMap (BT IRange)) : SegMap (BT IRange) :=
  ps.foldl (fun ti p => tiInsertOne ti seg p.1 p.2) ti

theorem pairsFold_cons (seg : SnapshotSegment) (p : Nat × IRange)
    (t : List (Nat × IRange)) (ti : SegMap (BT IRange)) :
    pairsFold seg (p :: t) ti = pairsFold seg t (tiInsertOne ti seg p.1 p.2) := rfl

theorem applyPairs_cons (p : Nat × IRange) (t : List (Nat × IRange)) (m : BT IRange) :
    applyPairs (p :: t) m = applyPairs t (BT.ins p.1 p.2 m) := rfl

theorem applyPairs_append (a b : List (Nat × IRange)) (m : BT IRange) :
    applyPairs (a ++ b) m = applyPairs b (applyPairs a m) :=
  List.foldl_append _ _ a b

theorem ti_step_eq_pairsFold (seg : SnapshotSegment) :
    ∀ (ranges : List (IRange × Option IRange)) (ti : SegMap (BT IRange)),
      ti_step ti seg ranges = pairsFold seg (rangePairs ranges) ti := by
  intro ranges
  induction ranges with
  | nil => intro ti; rfl
  | cons pr rest ih =>
    intro ti
    cases hpr : pr.2 with
    | none =>
      simp only [ti_step, List.foldl_cons, hpr, rangePairs, List.filterMap_cons,
        Option.map_none']
      exact ih ti
    | some tx_range =>
      simp only [ti_step, List.foldl_cons, hpr, rangePairs, List.filterMap_cons,
        Option.map_some']
      exact ih (tiInsertOne ti seg tx_range.2 pr.1)

theorem tiGetD_insertOne_self (ti : SegMap (BT IRange)) (seg : SnapshotSegment)
    (k : Nat) (v : IRange) :
    tiGetD (tiInsertOne ti seg k v) seg = BT.ins k v (tiGetD ti seg) := by
  rw [tiInsertOne_eq, tiGetD, SegMap.get_insert_self]
  rfl

theorem pairsFold_get_ne (seg seg' : SnapshotSegment) (h : seg' ≠ seg) :
    ∀ (ps : List (Nat × IRange)) (ti : SegMap (BT IRange)),
      (pairsFold seg ps ti).get seg' = ti.get seg' := by
  intro ps
  induction ps with
  | nil => intro ti; rfl
  | cons p t ih =>
    intro ti
    rw [pairsFold_cons]
    refine (ih (tiInsertOne ti seg p.1 p.2)).trans ?_
    rw [tiInsertOne_eq]
    exact SegMap.get_insert_ne ti seg seg' _ h

theorem pairsFold_get_self (seg : SnapshotSegment) :
    ∀ (ps : List (Nat × IRange)) (ti : SegMap (BT IRange)),
      (pairsFold seg ps ti).get seg =
        match ps with
        | [] => ti.get seg
        | p :: pt => some (applyPairs (p :: pt) (tiGetD ti seg)) := by
  intro ps
  induction ps with
  | nil => intro ti; rfl
  | cons p t ih =>
    intro ti
    rw [pairsFold_cons]
    cases t with
    | nil =>
      show (tiInsertOne ti seg p.1 p.2).get seg = _
      rw [tiInsertOne_eq, SegMap.get_insert_self]
      rfl
    | cons q tq =>
      rw [ih (tiInsertOne ti seg p.1 p.2)]
      simp only [tiGetD_insertOne_self]
      rfl

/-- The insertions `update_index` performs for one segment over a whole
listing, in order. -/
def tiPairs (seg : SnapshotSegment) : Listing → List (Nat × IRange)
  | [] => []
  | e :: t => (if e.1 = seg then rangePairs e.2 else []) ++ tiPairs seg t

theorem tiApply_get (seg : SnapshotSegment) :
    ∀ (l : Listing) (ti : SegMap (BT IRange)),
      (l.foldl (fun ti e => ti_step ti e.1 e.2) ti).get seg =
        match tiPairs seg l with
        | [] => ti.get seg
        | p :: pt => some (applyPairs (p :: pt) (tiGetD ti seg)) := by
  intro l
  induction l with
  | nil => intro ti; rfl
  | cons e t ih =>
    intro ti
    rw [List.foldl_cons, ih (ti_step ti e.1 e.2)]
    by_cases he : e.1 = seg
    · subst he
      rw [ti_step_eq_pairsFold]
      cases hps : rangePairs e.2 with
      | nil =>
        have hsame : pairsFold e.1 [] ti = ti := rfl
        rw [hsame, tiPairs, if_pos rfl, hps, List.nil_append]
      | cons p0 pt0 =>
        have hget := pairsFold_get_self e.1 (p0 :: pt0) ti
        have hgetD : tiGetD (pairsFold e.1 (p0 :: pt0) ti) e.1 =
            applyPairs (p0 :: pt0) (tiGetD ti e.1) := by
          rw [tiGetD, hget]
          rfl
        rw [tiPairs, if_pos rfl, hps]
        cases hpt : tiPairs e.1 t with
        | nil =>
          rw [hget, List.append_nil]
        | cons q qt =>
          rw [hgetD]
          show some (applyPairs (q :: qt) (applyPairs (p0 :: pt0) (tiGetD ti e.1))) =
            some (applyPairs (p0 :: (pt0 ++ q :: qt)) (tiGetD ti e.1))
          rw [← applyPairs_append]
          rfl
    · rw [tiPairs, if_neg he, List.nil_append]
      have hne : (ti_step ti e.1 e.2).get seg = ti.get seg := by
        rw [ti_step_eq_pairsFold]
        exact pairsFold_get_ne e.1 seg (Ne.symm he) _ ti
      have hneD : tiGetD (ti_step ti e.1 e.2) seg = tiGetD ti seg := by
        rw [tiGetD, tiGetD, hne]
      cases tiPairs seg t with
      | nil => rw [hne]
      | cons q qt => rw [hneD]

/-- The last value written for key `k` by a pair list, starting from `cur`. -/
def lastValFrom (k : Nat) (ps : List (Nat × IRange)) (cur : Option IRange) :
    Option IRange :=
  ps.foldl (fun acc p => if p.1 = k then some p.2 else acc) cur

theorem lastValFrom_oor (k : Nat) :
    ∀ (ps : List (Nat × IRange)) (cur : Option IRange),
      lastValFrom k ps cur = oor (lastValFrom k ps none) cur := by
  intro ps
  induction ps with
  | nil => intro cur; rfl
  | cons p t ih =>
    intro cur
    by_cases hpk : p.1 = k
    · simp only [lastValFrom, List.foldl_cons, if_pos hpk]
      show lastValFrom k t (some p.2) = oor (lastValFrom k t (some p.2)) cur
      rw [ih (some p.2)]
      cases lastValFrom k t none <;> rfl
    · simp only [lastValFrom, List.foldl_cons, if_neg hpk]
      show lastValFrom k t cur = oor (lastValFrom k t none) cur
      rw [ih cur]

theorem lookup_applyPairs (k : Nat) :
    ∀ (ps : List (Nat × IRange)) (m : BT IRange),
      BT.lookup k (applyPairs ps m) = lastValFrom k ps (BT.lookup k m) := by
  intro ps
  induction ps with
  | nil => intro m; rfl
  | cons p t ih =>
    intro m
    rw [applyPairs_cons, ih (BT.ins p.1 p.2 m)]
    by_cases hpk : p.1 = k
    · rw [hpk, BT.lookup_ins_self]
      simp only [lastValFrom, List.foldl_cons, if_pos hpk]
    · rw [BT.lookup_ins_ne p.1 k p.2 m (Ne.symm hpk)]
      simp only [lastValFrom, List.foldl_cons, if_neg hpk]

theorem applyPairs_sorted :
    ∀ (ps : List (Nat × IRange)) (m : BT IRange), BT.SortedKeys m →
      BT.SortedKeys (applyPairs ps m) := by
  intro ps
  induction ps with
  | nil => intro m hm; exact hm
  | cons p t ih =>
    intro m hm
    rw [applyPairs_cons]
    exact ih _ (BT.sortedKeys_ins p.1 p.2 m hm)

theorem applyPairs_absorb (ps : List (Nat × IRange)) (m : BT IRange)
    (hm : BT.SortedKeys m) : applyPairs ps (applyPairs ps m) = applyPairs ps m := by
  refine BT.ext_lookup _ _ (applyPairs_sorted ps _ (applyPairs_sorted ps m hm))
    (applyPairs_sorted ps m hm) ?_
  intro j
  rw [lookup_applyPairs, lookup_applyPairs, lastValFrom_oor j ps,
    lastValFrom_oor j ps (BT.lookup j m), oor_absorb]

theorem update_index_eq :
    ∀ (l : Listing) (mb : SegMap Nat) (ti : SegMap (BT IRange)),
      update_index l mb ti =
        (l.foldl (fun mb e => mb_step mb e.1 e.2) mb,
          l.foldl (fun ti e => ti_step ti e.1 e.2) ti) := by
  intro l
  induction l with
  | nil => intro mb ti; rfl
  | cons e t ih =>
    intro mb ti
    show update_index t (mb_step mb e.1 e.2) (ti_step ti e.1 e.2) = _
    rw [ih]
    rfl

theorem mbApply_get (seg : SnapshotSegment) :
    ∀ (l : Listing) (mb : SegMap Nat),
      (l.foldl (fun mb e => mb_step mb e.1 e.2) mb).get seg = mbVal seg (mb.get seg) l := by
  intro l
  induction l with
  | nil => intro mb; rfl
  | cons e t ih =>
    intro mb
    rw [List.foldl_cons, ih, mbVal]
    congr 1
    rw [mb_step]
    by_cases he : e.1 = seg
    · subst he
      cases hl : e.2.getLast? with
      | none => rw [if_pos rfl]
      | some pr =>
        obtain ⟨block_range, o⟩ := pr
        rw [if_pos rfl]
        exact SegMap.get_insert_self mb e.1 block_range.2
    · cases hl : e.2.getLast? with
      | none => rw [if_neg he]
      | some pr =>
        obtain ⟨block_range, o⟩ := pr
        rw [if_neg he]
        exact SegMap.get_insert_ne mb e.1 seg block_range.2 (Ne.symm he)

/-- Claim C8.  Running `update_index` a second time over the unchanged
directory listing leaves both index maps exactly as the first run left them:
for every listing, starting maps and well-formed (key-sorted) transaction
index, re-applying the transform to its own output is the identity. -/
theorem C8_update_index_idempotent (listing : Listing) (max_block : SegMap Nat)
    (tx_index : SegMap (BT IRange))
    (hwf : ∀ seg, BT.SortedKeys (tiGetD tx_index seg)) :
    update_index listing (update_index listing max_block tx_index).1
        (update_index listing max_block tx_index).2 =
      update_index listing max_block tx_index := by
  rw [update_index_eq listing max_block tx_index]
  rw [update_index_eq listing]
  simp only [Prod.mk.injEq]
  constructor
  · apply SegMap.ext_get
    intro seg
    rw [mbApply_get seg listing (listing.foldl (fun mb e => mb_step mb e.1 e.2) max_block),
      mbApply_get seg listing max_block]
    rw [mbVal_oor seg listing (mbVal seg (max_block.get seg) listing),
      mbVal_oor seg listing (max_block.get seg), oor_absorb]
  · apply SegMap.ext_get
    intro seg
    have h1 := tiApply_get seg listing tx_index
    have h2 := tiApply_get seg listing
      (listing.foldl (fun ti e => ti_step ti e.1 e.2) tx_index)
    rw [h2]
    cases hp : tiPairs seg listing with
    | nil => rfl
    | cons p pt =>
      rw [hp] at h1
      have h1' : (listing.foldl (fun ti e => ti_step ti e.1 e.2) tx_index).get seg =
          some (applyPairs (p :: pt) (tiGetD tx_index seg)) := h1
      have hD : tiGetD (listing.foldl (fun ti e => ti_step ti e.1 e.2) tx_index) seg =
          applyPairs (p :: pt) (tiGetD tx_index seg) := by
        rw [tiGetD, h1']
        rfl
      rw [hD, h1']
      show some (applyPairs (p :: pt) (applyPairs (p :: pt) (tiGetD tx_index seg))) =
        some (applyPairs (p :: pt) (tiGetD tx_index seg))
      rw [applyPairs_absorb (p :: pt) (tiGetD tx_index seg) (hwf seg)]

/-- A concrete two-segment directory listing for the idempotence witness. -/
def c8Listing : Listing :=
  [(.transactions, [((0, 4), some (0, 10)), ((5, 9), some (11, 20))]),
    (.headers, [((0, 4), none)])]

theorem C8_update_index_witness :
    update_index c8Listing (update_index c8Listing {} {}).1
        (update_index c8Listing {} {}).2 =
      update_index c8Listing {} {} :=
  C8_update_index_idempotent c8Listing {} {}
    (fun seg => by cases seg <;> exact trivial)

end Reth
